import Mathlib

/-!
Shallow embedding of the raptor migration orchestrator
(`core` package: `SimulatedDB`, `Migrator.Migrate`, `Migrator.Rollback`,
`Migrator.Status`).

Modelling decisions, each traced to the Go source:

* A migration is identified by its `Name()` string; `NewMigrator` sorts the
  registered list by name ascending.  Since the orchestrator never inspects a
  migration beyond its name and its `Up`/`Down` outcome, a migration is
  embedded as its name, and the outcome of each `Up`/`Down` call against the
  schema executor is supplied by an oracle `f : String → Option String`:
  `f n = none` means the executor call for migration `n` succeeds,
  `f n = some cause` means it fails with message `cause`.  A separate oracle
  is passed to every `Migrate`/`Rollback` call, so outcomes may differ from
  call to call (e.g. "after fixing B").
* `SimulatedDB.History` is a Go map `name → batch`; it is embedded as an
  association list with `recordH` (insert/overwrite) and `eraseH` (delete)
  maintaining at most one pair per key.  `GetLastBatch` is the maximum batch
  value (0 on empty), `GetRanMigrations` is only used to test membership, so
  membership is taken directly from `lookupH`.
* `Migrate` and `Rollback` return the successor state, the trace of
  `Up`/`Down` calls made (in call order), and `none` on success or
  `some (MigErr.mk name cause)` for Go's
  `fmt.Errorf("failed to ... migration %s: %w", name, err)`.
-/

namespace Raptor

/-- Strict lexicographic order on character lists: Go's `<` on strings
(`sort.Slice` comparator `migrations[i].Name() < migrations[j].Name()`),
spelled out so that it evaluates inside the kernel. -/
def chLt : List Char → List Char → Bool
  | [], [] => false
  | [], _ :: _ => true
  | _ :: _, [] => false
  | a :: as, b :: bs => if a < b then true else if b < a then false else chLt as bs

/-- Reflexive closure of `chLt` on strings: lexicographic `≤` on names. -/
def nameLe (a b : String) : Bool :=
  a == b || chLt a.data b.data

/-- The ordering relation `NewMigrator` sorts by: lexicographic `≤` on
migration names. -/
def nameLeP (a b : String) : Prop :=
  nameLe a b = true

instance : DecidableRel nameLeP :=
  fun a b => decidable_of_iff (nameLe a b = true) Iff.rfl

/-- The in-memory ledger of `SimulatedDB`: `History map[string]int`,
a finite map from migration name to the batch it was applied in. -/
abbrev History := List (String × Nat)

/-- Reading the Go map: the batch recorded for `n`, if any. -/
def lookupH (h : History) (n : String) : Option Nat :=
  (h.find? (fun p => p.1 == n)).map (fun p => p.2)

/-- Go's `delete(History, n)`: remove every pair keyed `n`. -/
def eraseH (h : History) (n : String) : History :=
  h.filter (fun p => p.1 != n)

/-- Go's `History[n] = b`: insert/overwrite the entry for `n`. -/
def recordH (h : History) (n : String) (b : Nat) : History :=
  (n, b) :: eraseH h n

/-- Go's `SimulatedDB.GetLastBatch`: the highest batch number recorded,
`0` if the history is empty. -/
def lastBatch (h : History) : Nat :=
  h.foldr (fun p acc => max p.2 acc) 0

/-- `recordH` iterated over a list of names, all with the same batch:
the net ledger effect of a successful `Migrate` loop. -/
def recordAll (h : History) (l : List String) (b : Nat) : History :=
  l.foldl (fun h' n => recordH h' n b) h

/-- `eraseH` iterated over a list of names: the net ledger effect of a
successful `Rollback` loop. -/
def eraseAll (h : History) (l : List String) : History :=
  l.foldl eraseH h

/-- Go's error value `fmt.Errorf("failed to run/rollback migration %s: %w",
name, cause)`: the failing migration's name together with the executor's
underlying cause. -/
structure MigErr where
  name : String
  cause : String
deriving DecidableEq

/-- The `Migrator` struct: the registered migration list (held sorted by
name ascending), and the `SimulatedDB` fields `History` and `NextBatch`. -/
structure Migrator where
  migrations : List String
  history : History
  nextBatch : Nat
deriving DecidableEq

/-- Go's `NewMigrator`: sorts the registered migrations by name ascending
(`sort.Slice` with `Name() < Name()`) and pairs them with a fresh
`SimulatedDB` (`History` empty, `NextBatch = 1`). -/
def NewMigrator (migs : List String) : Migrator :=
  { migrations := List.insertionSort nameLeP migs
    history := []
    nextBatch := 1 }

/-- The `pending` list computed at the top of `Migrate`: registered
migrations, in list order, whose name is not in the ledger. -/
def pendingOf (m : Migrator) : List String :=
  m.migrations.filter (fun n => (lookupH m.history n).isNone)

/-- The `for _, mig := range pending` loop of `Migrate`: calls `Up`
(outcome `f n`), records each success under `batch`, stops at the first
failure.  Returns the updated history, the trace of `Up` calls made, and
the error, if any. -/
def applyLoop (f : String → Option String) (batch : Nat) :
    List String → History → History × List String × Option MigErr
  | [], h => (h, [], none)
  | n :: rest, h =>
    match f n with
    | some cause => (h, [n], some ⟨n, cause⟩)
    | none =>
      let r := applyLoop f batch rest (recordH h n batch)
      (r.1, n :: r.2.1, r.2.2)

/-- Go's `Migrator.Migrate`, with `Up` outcomes given by the oracle `f`.
Returns the new state, the trace of `Up` calls, and the error if any. -/
def Migrate (f : String → Option String) (m : Migrator) :
    Migrator × List String × Option MigErr :=
  if pendingOf m = [] then (m, [], none)
  else
    let r := applyLoop f m.nextBatch (pendingOf m) m.history
    match r.2.2 with
    | some e => ({ m with history := r.1 }, r.2.1, some e)
    | none => ({ m with history := r.1, nextBatch := m.nextBatch + 1 }, r.2.1, none)

/-- The `migrationsToRevert` list of `Rollback`: scan the full registered
list backwards keeping the names recorded under the target batch. -/
def toRevertOf (m : Migrator) : List String :=
  m.migrations.reverse.filter (fun n => lookupH m.history n == some (lastBatch m.history))

/-- The `for _, mig := range migrationsToRevert` loop of `Rollback`: calls
`Down` (outcome `f n`), deletes each success from the history, stops at the
first failure. -/
def revertLoop (f : String → Option String) :
    List String → History → History × List String × Option MigErr
  | [], h => (h, [], none)
  | n :: rest, h =>
    match f n with
    | some cause => (h, [n], some ⟨n, cause⟩)
    | none =>
      let r := revertLoop f rest (eraseH h n)
      (r.1, n :: r.2.1, r.2.2)

/-- Go's `Migrator.Rollback`, with `Down` outcomes given by the oracle `f`.
Returns the new state, the trace of `Down` calls, and the error if any. -/
def Rollback (f : String → Option String) (m : Migrator) :
    Migrator × List String × Option MigErr :=
  if lastBatch m.history = 0 then (m, [], none)
  else
    if toRevertOf m = [] then (m, [], none)
    else
      let r := revertLoop f (toRevertOf m) m.history
      match r.2.2 with
      | some e => ({ m with history := r.1 }, r.2.1, some e)
      | none => ({ m with history := r.1, nextBatch := lastBatch m.history }, r.2.1, none)

/-- Go's `Migrator.Status`: a pure read that classifies each registered
migration, in list order, as `some batch` ("Ran (batch)") or `none`
("Pending"). -/
def Status (m : Migrator) : List (String × Option Nat) :=
  m.migrations.map (fun n => (n, lookupH m.history n))

/-- One orchestrator call: a `Migrate` or a `Rollback` under some oracle of
executor outcomes (each individual `Up`/`Down` may succeed or fail). -/
inductive Step : Migrator → Migrator → Prop
  | migrate (f : String → Option String) (m : Migrator) : Step m (Migrate f m).1
  | rollback (f : String → Option String) (m : Migrator) : Step m (Rollback f m).1

/-- States reachable from a freshly constructed migrator by any sequence of
`Migrate`/`Rollback` calls. -/
def Reachable (migs : List String) (m : Migrator) : Prop :=
  Relation.ReflTransGen Step (NewMigrator migs) m

theorem chLt_trans : ∀ (a b c : List Char),
    chLt a b = true → chLt b c = true → chLt a c = true := by
  intro a
  induction a with
  | nil =>
    intro b c hab hbc
    cases b with
    | nil => simp [chLt] at hab
    | cons y ys =>
      cases c with
      | nil => simp [chLt] at hbc
      | cons z zs => simp [chLt]
  | cons x xs ih =>
    intro b c hab hbc
    cases b with
    | nil => simp [chLt] at hab
    | cons y ys =>
      cases c with
      | nil => simp [chLt] at hbc
      | cons z zs =>
        simp only [chLt] at hab hbc ⊢
        by_cases hxy : x < y
        · by_cases hyz : y < z
          · simp [lt_trans hxy hyz]
          · by_cases hzy : z < y
            · simp [hyz, hzy] at hbc
            · have hyzeq : y = z := le_antisymm (not_lt.mp hzy) (not_lt.mp hyz)
              subst hyzeq
              simp [hxy]
        · by_cases hyx : y < x
          · simp [hxy, hyx] at hab
          · have hxyeq : x = y := le_antisymm (not_lt.mp hyx) (not_lt.mp hxy)
            subst hxyeq
            simp only [lt_irrefl, if_neg, if_false] at hab
            by_cases hxz : x < z
            · simp [hxz]
            · by_cases hzx : z < x
              · simp [hxz, hzx] at hbc
              · have hxzeq : x = z := le_antisymm (not_lt.mp hzx) (not_lt.mp hxz)
                subst hxzeq
                simp only [lt_irrefl, if_neg, if_false] at hbc ⊢
                exact ih ys zs hab hbc

theorem chLt_total : ∀ (a b : List Char),
    a ≠ b → chLt a b = true ∨ chLt b a = true := by
  intro a
  induction a with
  | nil =>
    intro b hne
    cases b with
    | nil => exact absurd rfl hne
    | cons y ys => left; simp [chLt]
  | cons x xs ih =>
    intro b hne
    cases b with
    | nil => right; simp [chLt]
    | cons y ys =>
      by_cases hxy : x < y
      · left; simp [chLt, hxy]
      · by_cases hyx : y < x
        · right; simp [chLt, hyx]
        · have hxyeq : x = y := le_antisymm (not_lt.mp hyx) (not_lt.mp hxy)
          subst hxyeq
          have hne2 : xs ≠ ys := by
            intro h
            exact hne (by rw [h])
          rcases ih ys hne2 with h | h
          · left; simp [chLt, lt_irrefl, h]
          · right; simp [chLt, lt_irrefl, h]

theorem nameLe_total (a b : String) : nameLe a b = true ∨ nameLe b a = true := by
  by_cases hab : a = b
  · subst hab
    left
    simp [nameLe]
  · have hdata : a.data ≠ b.data := by
      intro h
      apply hab
      cases a
      cases b
      simp_all
    rcases chLt_total a.data b.data hdata with h | h
    · left; simp [nameLe, h]
    · right; simp [nameLe, h]

theorem nameLe_trans (a b c : String) :
    nameLe a b = true → nameLe b c = true → nameLe a c = true := by
  intro hab hbc
  simp only [nameLe, Bool.or_eq_true, beq_iff_eq] at hab hbc ⊢
  rcases hab with hab | hab
  · subst hab
    exact hbc
  · rcases hbc with hbc | hbc
    · subst hbc
      right
      exact hab
    · right
      exact chLt_trans _ _ _ hab hbc

instance : IsTotal String nameLeP :=
  ⟨nameLe_total⟩

instance : IsTrans String nameLeP :=
  ⟨fun a b c => nameLe_trans a b c⟩

example : NewMigrator ["002_b", "001_a"] =
    { migrations := ["001_a", "002_b"], history := [], nextBatch := 1 } := by
  decide

example :
    (Migrate (fun _ => none) (NewMigrator ["002_b", "001_a"])).1 =
      { migrations := ["001_a", "002_b"],
        history := [("002_b", 1), ("001_a", 1)], nextBatch := 2 } := by
  decide

example :
    (Rollback (fun _ => none)
        (Migrate (fun _ => none) (NewMigrator ["002_b", "001_a"])).1).1 =
      { migrations := ["001_a", "002_b"], history := [], nextBatch := 1 } := by
  decide

example :
    (Rollback (fun _ => none)
        (Migrate (fun _ => none) (NewMigrator ["002_b", "001_a"])).1).2.1 =
      ["002_b", "001_a"] := by
  decide

theorem lookupH_nil (n : String) : lookupH [] n = none := rfl

theorem lookupH_cons (k : String) (b : Nat) (h : History) (n : String) :
    lookupH ((k, b) :: h) n = if k = n then some b else lookupH h n := by
  by_cases hkn : k = n <;> simp [lookupH, List.find?_cons, hkn]

theorem eraseH_nil (n : String) : eraseH [] n = [] := rfl

theorem eraseH_cons (k : String) (b : Nat) (h : History) (n : String) :
    eraseH ((k, b) :: h) n = if k = n then eraseH h n else (k, b) :: eraseH h n := by
  by_cases hkn : k = n <;> simp [eraseH, List.filter_cons, hkn]

theorem lookupH_eraseH (h : History) (n x : String) :
    lookupH (eraseH h n) x = if x = n then none else lookupH h x := by
  induction h with
  | nil => by_cases hxn : x = n <;> simp [eraseH_nil, lookupH_nil, hxn]
  | cons p h ih =>
    obtain ⟨k, b⟩ := p
    rw [eraseH_cons]
    by_cases hkn : k = n
    · rw [if_pos hkn, ih, lookupH_cons]
      by_cases hxn : x = n
      · rw [if_pos hxn, if_pos hxn]
      · rw [if_neg hxn, if_neg hxn, if_neg (fun hkx : k = x => hxn (hkx ▸ hkn))]
    · rw [if_neg hkn, lookupH_cons, lookupH_cons, ih]
      by_cases hkx : k = x
      · rw [if_pos hkx, if_pos hkx, if_neg (fun hxn : x = n => hkn (hkx.symm ▸ hxn))]
      · rw [if_neg hkx, if_neg hkx]

theorem lookupH_recordH (h : History) (n : String) (b : Nat) (x : String) :
    lookupH (recordH h n b) x = if x = n then some b else lookupH h x := by
  rw [recordH, lookupH_cons, lookupH_eraseH]
  by_cases hxn : x = n
  · subst hxn
    simp
  · rw [if_neg (fun hnx : n = x => hxn hnx.symm), if_neg hxn, if_neg hxn]

theorem mem_eraseH {p : String × Nat} {h : History} {n : String}
    (hp : p ∈ eraseH h n) : p ∈ h :=
  List.mem_of_mem_filter hp

theorem key_ne_of_mem_eraseH {p : String × Nat} {h : History} {n : String}
    (hp : p ∈ eraseH h n) : p.1 ≠ n := by
  have := List.of_mem_filter hp
  simpa using this

theorem mem_recordH {p : String × Nat} {h : History} {n : String} {b : Nat}
    (hp : p ∈ recordH h n b) : p = (n, b) ∨ p ∈ h := by
  rw [recordH, List.mem_cons] at hp
  rcases hp with hp | hp
  · exact Or.inl hp
  · exact Or.inr (mem_eraseH hp)

theorem recordAll_nil (h : History) (b : Nat) : recordAll h [] b = h := rfl

theorem recordAll_cons (h : History) (n : String) (l : List String) (b : Nat) :
    recordAll h (n :: l) b = recordAll (recordH h n b) l b := rfl

theorem eraseAll_nil (h : History) : eraseAll h [] = h := rfl

theorem eraseAll_cons (h : History) (n : String) (l : List String) :
    eraseAll h (n :: l) = eraseAll (eraseH h n) l := rfl

theorem lookupH_recordAll (l : List String) (h : History) (b : Nat) (x : String) :
    lookupH (recordAll h l b) x = if x ∈ l then some b else lookupH h x := by
  induction l generalizing h with
  | nil => simp [recordAll_nil]
  | cons a l ih =>
    rw [recordAll_cons, ih, lookupH_recordH]
    by_cases hxl : x ∈ l
    · simp [hxl]
    · by_cases hxa : x = a
      · simp [hxa, hxl]
      · simp [hxa, hxl]

theorem lookupH_eraseAll (l : List String) (h : History) (x : String) :
    lookupH (eraseAll h l) x = if x ∈ l then none else lookupH h x := by
  induction l generalizing h with
  | nil => simp [eraseAll_nil]
  | cons a l ih =>
    rw [eraseAll_cons, ih, lookupH_eraseH]
    by_cases hxl : x ∈ l
    · simp [hxl]
    · by_cases hxa : x = a
      · simp [hxa, hxl]
      · simp [hxa, hxl]

theorem mem_recordAll {p : String × Nat} {l : List String} {h : History} {b : Nat}
    (hp : p ∈ recordAll h l b) : (p.1 ∈ l ∧ p.2 = b) ∨ p ∈ h := by
  induction l generalizing h with
  | nil => exact Or.inr hp
  | cons a l ih =>
    rw [recordAll_cons] at hp
    rcases ih hp with ⟨h1, h2⟩ | hmem
    · exact Or.inl ⟨List.mem_cons_of_mem _ h1, h2⟩
    · rcases mem_recordH hmem with hpa | hph
      · subst hpa
        exact Or.inl ⟨List.mem_cons_self _ _, rfl⟩
      · exact Or.inr hph

theorem mem_eraseAll {p : String × Nat} {l : List String} {h : History}
    (hp : p ∈ eraseAll h l) : p ∈ h := by
  induction l generalizing h with
  | nil => exact hp
  | cons a l ih =>
    rw [eraseAll_cons] at hp
    exact mem_eraseH (ih hp)

theorem lastBatch_nil : lastBatch [] = 0 := rfl

theorem lastBatch_cons (p : String × Nat) (h : History) :
    lastBatch (p :: h) = max p.2 (lastBatch h) := rfl

theorem le_lastBatch_of_mem {p : String × Nat} {h : History} (hp : p ∈ h) :
    p.2 ≤ lastBatch h := by
  induction h with
  | nil => cases hp
  | cons q h ih =>
    rw [lastBatch_cons]
    rcases List.mem_cons.mp hp with hq | hq
    · subst hq
      exact le_max_left _ _
    · exact le_trans (ih hq) (le_max_right _ _)

theorem lastBatch_le {h : History} {k : Nat} (hk : ∀ p ∈ h, p.2 ≤ k) :
    lastBatch h ≤ k := by
  induction h with
  | nil => exact Nat.zero_le k
  | cons q h ih =>
    rw [lastBatch_cons]
    exact max_le (hk q (List.mem_cons_self _ _)) (ih fun p hp => hk p (List.mem_cons_of_mem _ hp))

theorem exists_mem_eq_lastBatch {h : History} (hne : lastBatch h ≠ 0) :
    ∃ p ∈ h, p.2 = lastBatch h := by
  induction h with
  | nil => exact absurd lastBatch_nil hne
  | cons q h ih =>
    rw [lastBatch_cons]
    rcases le_total (lastBatch h) q.2 with hle | hle
    · exact ⟨q, List.mem_cons_self _ _, (max_eq_left hle).symm⟩
    · rw [max_eq_right hle]
      have hne2 : lastBatch h ≠ 0 := by
        intro h0
        rw [lastBatch_cons, h0, Nat.max_zero] at hne
        rw [h0] at hle
        exact hne (Nat.le_zero.mp hle)
      obtain ⟨p, hp, hpe⟩ := ih hne2
      exact ⟨p, List.mem_cons_of_mem _ hp, hpe⟩

theorem keysNodup_eraseH {h : History} {n : String}
    (hnd : (h.map Prod.fst).Nodup) : ((eraseH h n).map Prod.fst).Nodup :=
  List.Nodup.sublist (List.Sublist.map Prod.fst (List.filter_sublist h)) hnd

theorem keysNodup_recordH {h : History} {n : String} {b : Nat}
    (hnd : (h.map Prod.fst).Nodup) : ((recordH h n b).map Prod.fst).Nodup := by
  rw [recordH, List.map_cons]
  refine List.nodup_cons.mpr ⟨?_, keysNodup_eraseH hnd⟩
  intro hmem
  obtain ⟨p, hp, hpe⟩ := List.mem_map.mp hmem
  exact key_ne_of_mem_eraseH hp hpe

theorem keysNodup_recordAll {l : List String} {h : History} {b : Nat}
    (hnd : (h.map Prod.fst).Nodup) : ((recordAll h l b).map Prod.fst).Nodup := by
  induction l generalizing h with
  | nil => exact hnd
  | cons a l ih =>
    rw [recordAll_cons]
    exact ih (keysNodup_recordH hnd)

theorem keysNodup_eraseAll {l : List String} {h : History}
    (hnd : (h.map Prod.fst).Nodup) : ((eraseAll h l).map Prod.fst).Nodup := by
  induction l generalizing h with
  | nil => exact hnd
  | cons a l ih =>
    rw [eraseAll_cons]
    exact ih (keysNodup_eraseH hnd)

theorem lookupH_eq_of_mem_of_keysNodup {p : String × Nat} {h : History}
    (hnd : (h.map Prod.fst).Nodup) (hp : p ∈ h) : lookupH h p.1 = some p.2 := by
  induction h with
  | nil => cases hp
  | cons q h ih =>
    rw [List.map_cons, List.nodup_cons] at hnd
    rcases List.mem_cons.mp hp with hq | hq
    · subst hq
      rw [lookupH_cons, if_pos rfl]
    · rw [lookupH_cons, if_neg, ih hnd.2 hq]
      intro he
      exact hnd.1 (he ▸ List.mem_map.mpr ⟨p, hq, rfl⟩)

theorem applyLoop_ok {f : String → Option String} {b : Nat} :
    ∀ {l : List String} {h : History}, (∀ n ∈ l, f n = none) →
      applyLoop f b l h = (recordAll h l b, l, none) := by
  intro l
  induction l with
  | nil => intro h _; rfl
  | cons a l ih =>
    intro h hf
    have ha : f a = none := hf a (List.mem_cons_self _ _)
    simp only [applyLoop, ha, recordAll_cons]
    rw [ih fun n hn => hf n (List.mem_cons_of_mem _ hn)]

theorem applyLoop_err_none {f : String → Option String} {b : Nat} :
    ∀ {l : List String} {h : History}, (applyLoop f b l h).2.2 = none →
      ∀ n ∈ l, f n = none := by
  intro l
  induction l with
  | nil => intro h _ n hn; cases hn
  | cons a l ih =>
    intro h he n hn
    rcases hfa : f a with _ | cause
    · rcases List.mem_cons.mp hn with rfl | hn2
      · exact hfa
      · refine ih (h := recordH h a b) ?_ n hn2
        simpa only [applyLoop, hfa] using he
    · simp [applyLoop, hfa] at he

theorem applyLoop_fail {f : String → Option String} {b : Nat} {x cause : String}
    (hx : f x = some cause) :
    ∀ {A : List String} (C : List String) {h : History}, (∀ n ∈ A, f n = none) →
      applyLoop f b (A ++ x :: C) h = (recordAll h A b, A ++ [x], some ⟨x, cause⟩) := by
  intro A
  induction A with
  | nil =>
    intro C h _
    simp only [List.nil_append, applyLoop, hx, recordAll_nil]
  | cons a A ih =>
    intro C h hf
    have ha : f a = none := hf a (List.mem_cons_self _ _)
    simp only [List.cons_append, applyLoop, ha, recordAll_cons, List.append_eq]
    rw [ih C fun n hn => hf n (List.mem_cons_of_mem _ hn)]

theorem revertLoop_ok {f : String → Option String} :
    ∀ {l : List String} {h : History}, (∀ n ∈ l, f n = none) →
      revertLoop f l h = (eraseAll h l, l, none) := by
  intro l
  induction l with
  | nil => intro h _; rfl
  | cons a l ih =>
    intro h hf
    have ha : f a = none := hf a (List.mem_cons_self _ _)
    simp only [revertLoop, ha, eraseAll_cons]
    rw [ih fun n hn => hf n (List.mem_cons_of_mem _ hn)]

theorem revertLoop_err_none {f : String → Option String} :
    ∀ {l : List String} {h : History}, (revertLoop f l h).2.2 = none →
      ∀ n ∈ l, f n = none := by
  intro l
  induction l with
  | nil => intro h _ n hn; cases hn
  | cons a l ih =>
    intro h he n hn
    rcases hfa : f a with _ | cause
    · rcases List.mem_cons.mp hn with rfl | hn2
      · exact hfa
      · refine ih (h := eraseH h a) ?_ n hn2
        simpa only [revertLoop, hfa] using he
    · simp [revertLoop, hfa] at he

theorem revertLoop_fail {f : String → Option String} {x cause : String}
    (hx : f x = some cause) :
    ∀ {A : List String} (C : List String) {h : History}, (∀ n ∈ A, f n = none) →
      revertLoop f (A ++ x :: C) h = (eraseAll h A, A ++ [x], some ⟨x, cause⟩) := by
  intro A
  induction A with
  | nil =>
    intro C h _
    simp only [List.nil_append, revertLoop, hx, eraseAll_nil]
  | cons a A ih =>
    intro C h hf
    have ha : f a = none := hf a (List.mem_cons_self _ _)
    simp only [List.cons_append, revertLoop, ha, eraseAll_cons, List.append_eq]
    rw [ih C fun n hn => hf n (List.mem_cons_of_mem _ hn)]

theorem migrate_pending_nil {f : String → Option String} {m : Migrator}
    (hp : pendingOf m = []) : Migrate f m = (m, [], none) := by
  simp [Migrate, hp]

theorem migrate_ok {f : String → Option String} {m : Migrator}
    (hp : pendingOf m ≠ []) (hf : ∀ n ∈ pendingOf m, f n = none) :
    Migrate f m =
      ({ m with history := recordAll m.history (pendingOf m) m.nextBatch,
                nextBatch := m.nextBatch + 1 }, pendingOf m, none) := by
  simp only [Migrate, if_neg hp]
  rw [applyLoop_ok hf]

theorem migrate_fail {f : String → Option String} {m : Migrator}
    {A C : List String} {x cause : String}
    (hp : pendingOf m = A ++ x :: C) (hA : ∀ n ∈ A, f n = none)
    (hx : f x = some cause) :
    Migrate f m =
      ({ m with history := recordAll m.history A m.nextBatch },
        A ++ [x], some ⟨x, cause⟩) := by
  have hpne : A ++ x :: C ≠ [] :=
    List.append_ne_nil_of_right_ne_nil _ (List.cons_ne_nil _ _)
  simp only [Migrate, hp, if_neg hpne]
  rw [applyLoop_fail hx C hA]

theorem migrate_cases {f : String → Option String} {m : Migrator}
    (he : (Migrate f m).2.2 = none) :
    (pendingOf m = [] ∧ Migrate f m = (m, [], none)) ∨
      (pendingOf m ≠ [] ∧ (∀ n ∈ pendingOf m, f n = none) ∧
        Migrate f m =
          ({ m with history := recordAll m.history (pendingOf m) m.nextBatch,
                    nextBatch := m.nextBatch + 1 }, pendingOf m, none)) := by
  by_cases hp : pendingOf m = []
  · exact Or.inl ⟨hp, migrate_pending_nil hp⟩
  · refine Or.inr ⟨hp, ?_, ?_⟩
    · apply applyLoop_err_none (b := m.nextBatch) (h := m.history)
      by_contra hne
      rcases Option.ne_none_iff_exists'.mp hne with ⟨e, he2⟩
      simp only [Migrate, if_neg hp, he2] at he
      exact absurd he (by simp)
    · apply migrate_ok hp
      apply applyLoop_err_none (b := m.nextBatch) (h := m.history)
      by_contra hne
      rcases Option.ne_none_iff_exists'.mp hne with ⟨e, he2⟩
      simp only [Migrate, if_neg hp, he2] at he
      exact absurd he (by simp)

theorem rollback_lastBatch_zero {f : String → Option String} {m : Migrator}
    (h0 : lastBatch m.history = 0) : Rollback f m = (m, [], none) := by
  simp [Rollback, h0]

theorem rollback_degenerate {f : String → Option String} {m : Migrator}
    (h0 : lastBatch m.history ≠ 0) (hr : toRevertOf m = []) :
    Rollback f m = (m, [], none) := by
  simp [Rollback, h0, hr]

theorem rollback_ok {f : String → Option String} {m : Migrator}
    (h0 : lastBatch m.history ≠ 0) (hr : toRevertOf m ≠ [])
    (hf : ∀ n ∈ toRevertOf m, f n = none) :
    Rollback f m =
      ({ m with history := eraseAll m.history (toRevertOf m),
                nextBatch := lastBatch m.history }, toRevertOf m, none) := by
  simp only [Rollback, if_neg h0, if_neg hr]
  rw [revertLoop_ok hf]

theorem rollback_fail {f : String → Option String} {m : Migrator}
    {A C : List String} {x cause : String}
    (h0 : lastBatch m.history ≠ 0) (hr : toRevertOf m = A ++ x :: C)
    (hA : ∀ n ∈ A, f n = none) (hx : f x = some cause) :
    Rollback f m =
      ({ m with history := eraseAll m.history A }, A ++ [x], some ⟨x, cause⟩) := by
  have hrne : A ++ x :: C ≠ [] :=
    List.append_ne_nil_of_right_ne_nil _ (List.cons_ne_nil _ _)
  simp only [Rollback, hr, if_neg h0, if_neg hrne]
  rw [revertLoop_fail hx C hA]

theorem rollback_cases {f : String → Option String} {m : Migrator}
    (he : (Rollback f m).2.2 = none) :
    (Rollback f m = (m, [], none) ∧
      (lastBatch m.history = 0 ∨ toRevertOf m = [])) ∨
      (lastBatch m.history ≠ 0 ∧ toRevertOf m ≠ [] ∧
        (∀ n ∈ toRevertOf m, f n = none) ∧
        Rollback f m =
          ({ m with history := eraseAll m.history (toRevertOf m),
                    nextBatch := lastBatch m.history }, toRevertOf m, none)) := by
  by_cases h0 : lastBatch m.history = 0
  · exact Or.inl ⟨rollback_lastBatch_zero h0, Or.inl h0⟩
  · by_cases hr : toRevertOf m = []
    · exact Or.inl ⟨rollback_degenerate h0 hr, Or.inr hr⟩
    · have hf : ∀ n ∈ toRevertOf m, f n = none := by
        apply revertLoop_err_none (h := m.history)
        by_contra hne
        rcases Option.ne_none_iff_exists'.mp hne with ⟨e, he2⟩
        simp only [Rollback, if_neg h0, if_neg hr, he2] at he
        exact absurd he (by simp)
      exact Or.inr ⟨h0, hr, hf, rollback_ok h0 hr hf⟩

theorem migrations_migrate (f : String → Option String) (m : Migrator) :
    ((Migrate f m).1).migrations = m.migrations := by
  by_cases hp : pendingOf m = []
  · rw [migrate_pending_nil hp]
  · simp only [Migrate, if_neg hp]
    rcases (applyLoop f m.nextBatch (pendingOf m) m.history).2.2 with _ | e <;> rfl

theorem migrations_rollback (f : String → Option String) (m : Migrator) :
    ((Rollback f m).1).migrations = m.migrations := by
  by_cases h0 : lastBatch m.history = 0
  · rw [rollback_lastBatch_zero h0]
  · by_cases hr : toRevertOf m = []
    · rw [rollback_degenerate h0 hr]
    · simp only [Rollback, if_neg h0, if_neg hr]
      rcases (revertLoop f (toRevertOf m) m.history).2.2 with _ | e <;> rfl

theorem lookupH_none_of_mem_pendingOf {m : Migrator} {n : String}
    (hn : n ∈ pendingOf m) : lookupH m.history n = none := by
  have := List.of_mem_filter hn
  simpa [Option.isNone_iff_eq_none] using this

theorem mem_migrations_of_mem_pendingOf {m : Migrator} {n : String}
    (hn : n ∈ pendingOf m) : n ∈ m.migrations :=
  List.mem_of_mem_filter hn

theorem lookupH_eq_target_of_mem_toRevertOf {m : Migrator} {n : String}
    (hn : n ∈ toRevertOf m) : lookupH m.history n = some (lastBatch m.history) := by
  have := List.of_mem_filter hn
  simpa using this

theorem mem_migrations_of_mem_toRevertOf {m : Migrator} {n : String}
    (hn : n ∈ toRevertOf m) : n ∈ m.migrations := by
  have := List.mem_of_mem_filter hn
  exact List.mem_reverse.mp this

theorem mem_toRevertOf {m : Migrator} {n : String} (hn : n ∈ m.migrations)
    (hl : lookupH m.history n = some (lastBatch m.history)) : n ∈ toRevertOf m := by
  refine List.mem_filter.mpr ⟨List.mem_reverse.mpr hn, ?_⟩
  simp [hl]

theorem applyLoop_history (f : String → Option String) (b : Nat) :
    ∀ (l : List String) (h : History), ∃ l1 l2, l = l1 ++ l2 ∧
      (∀ n ∈ l1, f n = none) ∧ (applyLoop f b l h).1 = recordAll h l1 b := by
  intro l
  induction l with
  | nil => exact fun h => ⟨[], [], rfl, by simp, rfl⟩
  | cons a l ih =>
    intro h
    rcases hfa : f a with _ | cause
    · obtain ⟨l1, l2, hl, hf1, hh⟩ := ih (recordH h a b)
      refine ⟨a :: l1, l2, by rw [List.cons_append, hl], ?_, ?_⟩
      · intro n hn
        rcases List.mem_cons.mp hn with rfl | hn2
        · exact hfa
        · exact hf1 n hn2
      · simp only [applyLoop, hfa, recordAll_cons]
        exact hh
    · exact ⟨[], a :: l, rfl, by simp, by simp only [applyLoop, hfa, recordAll_nil]⟩

theorem revertLoop_history (f : String → Option String) :
    ∀ (l : List String) (h : History), ∃ l1 l2, l = l1 ++ l2 ∧
      (∀ n ∈ l1, f n = none) ∧ (revertLoop f l h).1 = eraseAll h l1 := by
  intro l
  induction l with
  | nil => exact fun h => ⟨[], [], rfl, by simp, rfl⟩
  | cons a l ih =>
    intro h
    rcases hfa : f a with _ | cause
    · obtain ⟨l1, l2, hl, hf1, hh⟩ := ih (eraseH h a)
      refine ⟨a :: l1, l2, by rw [List.cons_append, hl], ?_, ?_⟩
      · intro n hn
        rcases List.mem_cons.mp hn with rfl | hn2
        · exact hfa
        · exact hf1 n hn2
      · simp only [revertLoop, hfa, eraseAll_cons]
        exact hh
    · exact ⟨[], a :: l, rfl, by simp, by simp only [revertLoop, hfa, eraseAll_nil]⟩

theorem migrate_nextBatch_ge (f : String → Option String) (m : Migrator) :
    m.nextBatch ≤ ((Migrate f m).1).nextBatch := by
  by_cases hp : pendingOf m = []
  · rw [migrate_pending_nil hp]
  · simp only [Migrate, if_neg hp]
    rcases he : (applyLoop f m.nextBatch (pendingOf m) m.history).2.2 with _ | e <;>
      simp [he]

theorem migrate_history_shape (f : String → Option String) (m : Migrator) :
    ∃ l1, (∀ n ∈ l1, n ∈ pendingOf m) ∧
      ((Migrate f m).1).history = recordAll m.history l1 m.nextBatch := by
  by_cases hp : pendingOf m = []
  · refine ⟨[], by simp, ?_⟩
    rw [migrate_pending_nil hp]
    rfl
  · obtain ⟨l1, l2, hl, _, hh⟩ :=
      applyLoop_history f m.nextBatch (pendingOf m) m.history
    refine ⟨l1, ?_, ?_⟩
    · intro n hn
      rw [hl]
      exact List.mem_append_left _ hn
    · simp only [Migrate, if_neg hp]
      rcases he : (applyLoop f m.nextBatch (pendingOf m) m.history).2.2 with _ | e <;>
        simp [he, hh]

theorem rollback_shape (f : String → Option String) (m : Migrator) :
    (Rollback f m).1 = m ∨
      ∃ l1, (∀ n ∈ l1, n ∈ toRevertOf m) ∧
        ((Rollback f m).1).history = eraseAll m.history l1 ∧
        (((Rollback f m).1).nextBatch = m.nextBatch ∨
          (((Rollback f m).1).nextBatch = lastBatch m.history ∧
            lastBatch m.history ≠ 0)) := by
  by_cases h0 : lastBatch m.history = 0
  · rw [rollback_lastBatch_zero h0]
    exact Or.inl rfl
  · by_cases hr : toRevertOf m = []
    · rw [rollback_degenerate h0 hr]
      exact Or.inl rfl
    · obtain ⟨l1, l2, hl, _, hh⟩ := revertLoop_history f (toRevertOf m) m.history
      refine Or.inr ⟨l1, ?_, ?_, ?_⟩
      · intro n hn
        rw [hl]
        exact List.mem_append_left _ hn
      · simp only [Rollback, if_neg h0, if_neg hr]
        rcases he : (revertLoop f (toRevertOf m) m.history).2.2 with _ | e <;>
          simp [he, hh]
      · simp only [Rollback, if_neg h0, if_neg hr]
        rcases he : (revertLoop f (toRevertOf m) m.history).2.2 with _ | e
        · exact Or.inr ⟨rfl, h0⟩
        · exact Or.inl rfl

/-- The ledger well-formedness facts maintained by every orchestrator call:
the batch counter is at least 1, every recorded batch lies in
`[1, nextBatch]`, every recorded name is a registered migration, and no
name is recorded twice. -/
def LedgerInv (m : Migrator) : Prop :=
  1 ≤ m.nextBatch ∧
    (∀ p ∈ m.history, 1 ≤ p.2 ∧ p.2 ≤ m.nextBatch) ∧
    (∀ p ∈ m.history, p.1 ∈ m.migrations) ∧
    (m.history.map Prod.fst).Nodup

theorem ledgerInv_new (migs : List String) : LedgerInv (NewMigrator migs) := by
  refine ⟨le_refl 1, ?_, ?_, ?_⟩ <;> simp [NewMigrator]

theorem ledgerInv_migrate {m : Migrator} (f : String → Option String)
    (hm : LedgerInv m) : LedgerInv (Migrate f m).1 := by
  obtain ⟨h1, h2, h3, h4⟩ := hm
  obtain ⟨l1, hl1, hh⟩ := migrate_history_shape f m
  have hnb := migrate_nextBatch_ge f m
  refine ⟨le_trans h1 hnb, ?_, ?_, ?_⟩
  · intro p hp
    rw [hh] at hp
    rcases mem_recordAll hp with ⟨_, hb⟩ | hp2
    · exact ⟨hb ▸ h1, hb ▸ hnb⟩
    · exact ⟨(h2 p hp2).1, le_trans (h2 p hp2).2 hnb⟩
  · intro p hp
    rw [hh] at hp
    rw [migrations_migrate]
    rcases mem_recordAll hp with ⟨hk, _⟩ | hp2
    · exact mem_migrations_of_mem_pendingOf (hl1 _ hk)
    · exact h3 p hp2
  · rw [hh]
    exact keysNodup_recordAll h4

theorem ledgerInv_rollback {m : Migrator} (f : String → Option String)
    (hm : LedgerInv m) : LedgerInv (Rollback f m).1 := by
  obtain ⟨h1, h2, h3, h4⟩ := hm
  rcases rollback_shape f m with heq | ⟨l1, _, hh, hnb⟩
  · rw [heq]
    exact ⟨h1, h2, h3, h4⟩
  · refine ⟨?_, ?_, ?_, ?_⟩
    · rcases hnb with hnb | ⟨hnb, h0⟩
      · rw [hnb]; exact h1
      · rw [hnb]; exact Nat.one_le_iff_ne_zero.mpr h0
    · intro p hp
      rw [hh] at hp
      have hp2 := mem_eraseAll hp
      rcases hnb with hnb | ⟨hnb, _⟩
      · rw [hnb]
        exact h2 p hp2
      · rw [hnb]
        exact ⟨(h2 p hp2).1, le_lastBatch_of_mem hp2⟩
    · intro p hp
      rw [hh] at hp
      rw [migrations_rollback]
      exact h3 p (mem_eraseAll hp)
    · rw [hh]
      exact keysNodup_eraseAll h4

theorem reachable_ledgerInv {migs : List String} {m : Migrator}
    (hr : Reachable migs m) : LedgerInv m := by
  induction hr with
  | refl => exact ledgerInv_new migs
  | tail _ hstep ih =>
    cases hstep with
    | migrate f m => exact ledgerInv_migrate f ih
    | rollback f m => exact ledgerInv_rollback f ih

theorem reachable_migrations {migs : List String} {m : Migrator}
    (hr : Reachable migs m) : m.migrations = List.insertionSort nameLeP migs := by
  induction hr with
  | refl => rfl
  | tail _ hstep ih =>
    cases hstep with
    | migrate f m => rw [migrations_migrate]; exact ih
    | rollback f m => rw [migrations_rollback]; exact ih

theorem mem_of_lookupH {h : History} {x : String} {b : Nat}
    (hl : lookupH h x = some b) : (x, b) ∈ h := by
  unfold lookupH at hl
  rcases hfind : h.find? (fun p => p.1 == x) with _ | p
  · rw [hfind] at hl
    cases hl
  · rw [hfind] at hl
    obtain ⟨p1, p2⟩ := p
    have hp := List.mem_of_find?_eq_some hfind
    have hpx := List.find?_some hfind
    simp only [Option.map_some'] at hl
    have h1 : p1 = x := by simpa using hpx
    have h2 : p2 = b := by simpa using hl
    rw [h1, h2] at hp
    exact hp

theorem lastBatch_recordH_ge (h : History) (n : String) (b : Nat) :
    b ≤ lastBatch (recordH h n b) := by
  rw [recordH, lastBatch_cons]
  exact le_max_left _ _

theorem lastBatch_recordAll_ge_of_le {b : Nat} :
    ∀ {l : List String} {h : History}, b ≤ lastBatch h →
      b ≤ lastBatch (recordAll h l b) := by
  intro l
  induction l with
  | nil => exact fun hb => hb
  | cons a l ih =>
    intro h _
    rw [recordAll_cons]
    exact ih (lastBatch_recordH_ge h a b)

theorem lastBatch_recordAll_ge {l : List String} (hl : l ≠ []) (h : History) (b : Nat) :
    b ≤ lastBatch (recordAll h l b) := by
  cases l with
  | nil => exact absurd rfl hl
  | cons a l =>
    rw [recordAll_cons]
    exact lastBatch_recordAll_ge_of_le (lastBatch_recordH_ge h a b)

theorem lastBatch_recordAll_le {l : List String} {h : History} {b : Nat}
    (hb : ∀ p ∈ h, p.2 ≤ b) : lastBatch (recordAll h l b) ≤ b := by
  apply lastBatch_le
  intro p hp
  rcases mem_recordAll hp with ⟨_, h2⟩ | hp2
  · exact le_of_eq h2
  · exact hb p hp2

theorem lastBatch_after_ok {m : Migrator}
    (hb : ∀ p ∈ m.history, p.2 < m.nextBatch) (hp : pendingOf m ≠ []) :
    lastBatch (recordAll m.history (pendingOf m) m.nextBatch) = m.nextBatch :=
  le_antisymm (lastBatch_recordAll_le fun p hp2 => le_of_lt (hb p hp2))
    (lastBatch_recordAll_ge hp _ _)

theorem filter_mem_pendingOf (m : Migrator) :
    m.migrations.filter (fun x => decide (x ∈ pendingOf m)) = pendingOf m := by
  have hc : ∀ x ∈ m.migrations,
      (decide (x ∈ pendingOf m)) = (lookupH m.history x).isNone := by
    intro x hx
    by_cases hxp : x ∈ pendingOf m
    · rw [decide_eq_true hxp, lookupH_none_of_mem_pendingOf hxp]
      rfl
    · rw [decide_eq_false hxp]
      rcases hiso : (lookupH m.history x).isNone with _ | _
      · rfl
      · exact absurd (List.mem_filter.mpr ⟨hx, hiso⟩) hxp
  rw [List.filter_congr hc]
  rfl

theorem toRevert_after_ok {m m1 : Migrator}
    (hb : ∀ p ∈ m.history, p.2 < m.nextBatch) (hp : pendingOf m ≠ [])
    (hmig : m1.migrations = m.migrations)
    (hh : m1.history = recordAll m.history (pendingOf m) m.nextBatch) :
    toRevertOf m1 = (pendingOf m).reverse := by
  rw [toRevertOf, hmig, hh, lastBatch_after_ok hb hp]
  have hcong : ∀ x ∈ m.migrations.reverse,
      (lookupH (recordAll m.history (pendingOf m) m.nextBatch) x == some m.nextBatch) =
        decide (x ∈ pendingOf m) := by
    intro x hx
    rw [lookupH_recordAll]
    by_cases hxp : x ∈ pendingOf m
    · simp [hxp]
    · rw [if_neg hxp, decide_eq_false hxp]
      rcases hlk : lookupH m.history x with _ | b
      · exfalso
        apply hxp
        refine List.mem_filter.mpr ⟨List.mem_reverse.mp hx, ?_⟩
        rw [hlk]
        rfl
      · have hblt : b < m.nextBatch := hb (x, b) (mem_of_lookupH hlk)
        simp [Nat.ne_of_lt hblt]
  rw [List.filter_congr hcong, List.filter_reverse, filter_mem_pendingOf]

theorem lookupH_eraseAll_recordAll (m : Migrator) (x : String) :
    lookupH (eraseAll (recordAll m.history (pendingOf m) m.nextBatch)
        (pendingOf m).reverse) x = lookupH m.history x := by
  rw [lookupH_eraseAll, lookupH_recordAll]
  by_cases hxp : x ∈ pendingOf m
  · rw [if_pos (List.mem_reverse.mpr hxp)]
    exact (lookupH_none_of_mem_pendingOf hxp).symm
  · rw [if_neg (fun hxr => hxp (List.mem_reverse.mp hxr)), if_neg hxp]

theorem migrate_then_rollback_ok {f g : String → Option String} {m : Migrator}
    (hb : ∀ p ∈ m.history, p.2 < m.nextBatch) (hn : 1 ≤ m.nextBatch)
    (hp : pendingOf m ≠ []) (hf : ∀ n ∈ pendingOf m, f n = none)
    (hg : ∀ n ∈ pendingOf m, g n = none) :
    (Migrate f m).2.1 = pendingOf m ∧ (Migrate f m).2.2 = none ∧
      (Rollback g (Migrate f m).1).2.1 = (pendingOf m).reverse ∧
      (Rollback g (Migrate f m).1).2.2 = none ∧
      (∀ x, lookupH ((Rollback g (Migrate f m).1).1).history x = lookupH m.history x) ∧
      ((Rollback g (Migrate f m).1).1).nextBatch = m.nextBatch ∧
      ((Rollback g (Migrate f m).1).1).migrations = m.migrations := by
  have hmig : ((Migrate f m).1).migrations = m.migrations := migrations_migrate f m
  have hh : ((Migrate f m).1).history =
      recordAll m.history (pendingOf m) m.nextBatch := by
    rw [migrate_ok hp hf]
  have htr : toRevertOf (Migrate f m).1 = (pendingOf m).reverse :=
    toRevert_after_ok hb hp hmig hh
  have hlb : lastBatch ((Migrate f m).1).history = m.nextBatch := by
    rw [hh]
    exact lastBatch_after_ok hb hp
  have h0 : lastBatch ((Migrate f m).1).history ≠ 0 := by
    rw [hlb]
    omega
  have hrne : toRevertOf (Migrate f m).1 ≠ [] := by
    rw [htr]
    intro hrev
    exact hp (List.reverse_eq_nil_iff.mp hrev)
  have hg2 : ∀ n ∈ toRevertOf (Migrate f m).1, g n = none := by
    rw [htr]
    intro n hn2
    exact hg n (List.mem_reverse.mp hn2)
  have hro := rollback_ok (f := g) h0 hrne hg2
  refine ⟨?_, ?_, ?_, ?_, ?_, ?_, ?_⟩
  · rw [migrate_ok hp hf]
  · rw [migrate_ok hp hf]
  · rw [hro, htr]
  · rw [hro]
  · intro x
    rw [hro]
    show lookupH (eraseAll ((Migrate f m).1).history (toRevertOf (Migrate f m).1)) x =
      lookupH m.history x
    rw [htr, hh]
    exact lookupH_eraseAll_recordAll m x
  · rw [hro]
    exact hlb
  · rw [hro]
    exact hmig

theorem pendingOf_sorted {m : Migrator} (hs : List.Sorted nameLeP m.migrations) :
    List.Sorted nameLeP (pendingOf m) :=
  List.Pairwise.filter _ hs

theorem newMigrator_sorted (migs : List String) :
    List.Sorted nameLeP ((NewMigrator migs).migrations) :=
  List.sorted_insertionSort nameLeP migs

theorem reachable_sorted {migs : List String} {m : Migrator}
    (hr : Reachable migs m) : List.Sorted nameLeP m.migrations := by
  rw [reachable_migrations hr]
  exact List.sorted_insertionSort nameLeP migs

theorem pendingOf_nil_after_ok {f : String → Option String} {m : Migrator}
    (hs : (Migrate f m).2.2 = none) : pendingOf (Migrate f m).1 = [] := by
  rcases migrate_cases hs with ⟨hp, heq⟩ | ⟨hp, hf, heq⟩
  · rw [heq]
    exact hp
  · rw [heq]
    apply List.filter_eq_nil_iff.mpr
    intro n hn
    rw [lookupH_recordAll]
    by_cases hnp : n ∈ pendingOf m
    · simp [hnp]
    · rw [if_neg hnp]
      rcases hlk : lookupH m.history n with _ | b
      · refine absurd (List.mem_filter.mpr ⟨hn, ?_⟩) hnp
        rw [hlk]
        rfl
      · simp

/-- Claim C6: after a `Migrate` call in which every pending migration was
applied successfully, a second `Migrate` with no new migrations registered
performs zero `Up` calls (empty trace), returns success, and leaves the
state — applied set and `nextBatch` counter — unchanged. -/
theorem c6_migrate_idempotent {f : String → Option String} {m : Migrator}
    (hs : (Migrate f m).2.2 = none) (g : String → Option String) :
    Migrate g (Migrate f m).1 = ((Migrate f m).1, [], none) :=
  migrate_pending_nil (pendingOf_nil_after_ok hs)

theorem c6_witness :
    Migrate (fun _ => none) (Migrate (fun _ => none) (NewMigrator ["001_a"])).1 =
      ((Migrate (fun _ => none) (NewMigrator ["001_a"])).1, [], none) :=
  c6_migrate_idempotent (by decide) (fun _ => none)

/-- Claim C7: `Status` is embedded as a pure function of the migrator state
(mirroring that the Go code mutates neither ledger nor migration list); it
enumerates every registered migration exactly once — its name column is
exactly the registered (sorted-ascending) list — and tags each name with
exactly the ledger's classification: `some k` when the ledger maps the name
to batch `k`, `none` (pending) otherwise. -/
theorem c7_status_classification {m : Migrator}
    (hs : List.Sorted nameLeP m.migrations) :
    (Status m).map Prod.fst = m.migrations ∧
      List.Sorted nameLeP ((Status m).map Prod.fst) ∧
      ∀ p ∈ Status m, p.2 = lookupH m.history p.1 := by
  have hmap : (Status m).map Prod.fst = m.migrations := by
    rw [Status, List.map_map]
    exact List.map_id m.migrations
  refine ⟨hmap, hmap ▸ hs, ?_⟩
  intro p hp
  rw [Status] at hp
  obtain ⟨n, _, rfl⟩ := List.mem_map.mp hp
  rfl

theorem c7_witness :
    (Status (NewMigrator ["002_b", "001_a"])).map Prod.fst =
      (NewMigrator ["002_b", "001_a"]).migrations :=
  (c7_status_classification (newMigrator_sorted ["002_b", "001_a"])).1

/-- Claim C10: in every state reachable from a freshly constructed migrator
by any sequence of `Migrate`/`Rollback` calls (with arbitrary per-call
executor outcomes), `nextBatch` is at least 1 and every batch number
recorded in the ledger lies between 1 and `nextBatch` inclusive. -/
theorem c10_batch_bounds {migs : List String} {m : Migrator}
    (hr : Reachable migs m) :
    1 ≤ m.nextBatch ∧ ∀ p ∈ m.history, 1 ≤ p.2 ∧ p.2 ≤ m.nextBatch := by
  obtain ⟨h1, h2, _, _⟩ := reachable_ledgerInv hr
  exact ⟨h1, h2⟩

theorem c10_witness : 1 ≤ (NewMigrator ["001_a"]).nextBatch :=
  (@c10_batch_bounds ["001_a"] (NewMigrator ["001_a"]) Relation.ReflTransGen.refl).1

/-- Claim C2 as stated is false: it asserts that in every reachable state
`nextBatch` is strictly greater than the maximum recorded batch number
except immediately after a (successful) rollback of the highest batch.
The state reached from a fresh migrator over `["001_a", "002_b"]` by one
`Migrate` whose `Up` of `"002_b"` fails has `lastBatch = nextBatch = 1`,
and it is not the result of any successful rollback of a nonzero batch. -/
theorem c2_counterexample :
    ¬ (∀ m : Migrator, Reachable ["001_a", "002_b"] m →
        lastBatch m.history < m.nextBatch ∨
          ∃ (m' : Migrator) (g : String → Option String),
            Reachable ["001_a", "002_b"] m' ∧
            lastBatch m'.history ≠ 0 ∧
            (Rollback g m').2.2 = none ∧
            (Rollback g m').1 = m ∧
            m.nextBatch = lastBatch m'.history) := by
  intro hall
  have hreach : Reachable ["001_a", "002_b"]
      (Migrate (fun n => if n = "002_b" then some "boom" else none)
        (NewMigrator ["001_a", "002_b"])).1 :=
    Relation.ReflTransGen.single (Step.migrate _ _)
  rcases hall _ hreach with hlt | ⟨m', g, _, h0, hsucc, heq, hnb⟩
  · exact absurd hlt (by decide)
  · rcases rollback_cases hsucc with ⟨hq, hcase⟩ | ⟨_, _, _, hfull⟩
    · have hm' : m' =
          (Migrate (fun n => if n = "002_b" then some "boom" else none)
            (NewMigrator ["001_a", "002_b"])).1 := by
        rw [← heq, hq]
      rcases hcase with hl0 | hrev
      · exact absurd hl0 h0
      · rw [hm'] at hrev
        exact absurd hrev (by decide)
    · rw [hfull] at heq
      have hh : ((Migrate (fun n => if n = "002_b" then some "boom" else none)
          (NewMigrator ["001_a", "002_b"])).1).history =
          eraseAll m'.history (toRevertOf m') := by
        rw [← heq]
      have hmigs : ((Migrate (fun n => if n = "002_b" then some "boom" else none)
          (NewMigrator ["001_a", "002_b"])).1).migrations = m'.migrations := by
        rw [← heq]
      have hlb1 : lastBatch m'.history = 1 := by
        have h1 : ((Migrate (fun n => if n = "002_b" then some "boom" else none)
            (NewMigrator ["001_a", "002_b"])).1).nextBatch = 1 := by decide
        rw [h1] at hnb
        exact hnb.symm
      have hlk : lookupH ((Migrate (fun n => if n = "002_b" then some "boom" else none)
          (NewMigrator ["001_a", "002_b"])).1).history "001_a" = some 1 := by decide
      rw [hh, lookupH_eraseAll] at hlk
      by_cases hin : "001_a" ∈ toRevertOf m'
      · rw [if_pos hin] at hlk
        cases hlk
      · rw [if_neg hin] at hlk
        apply hin
        apply mem_toRevertOf
        · rw [← hmigs]
          decide
        · rw [hlk, hlb1]

/-- Claim C2 (amended): in every reachable state `nextBatch` is greater
than **or equal to** the maximum batch number present in any entry (the
strict inequality fails immediately after a partially failed migrate, when
`nextBatch` equals the batch of the entries just recorded); and a
successful rollback of a nonzero highest batch resets `nextBatch` to
exactly the rolled-back batch number, so the next migrate reuses it. -/
theorem c2_nextBatch_ge_lastBatch {migs : List String} {m : Migrator}
    (hr : Reachable migs m) :
    lastBatch m.history ≤ m.nextBatch ∧
      ∀ g : String → Option String, lastBatch m.history ≠ 0 →
        (Rollback g m).2.2 = none →
        ((Rollback g m).1).nextBatch = lastBatch m.history := by
  obtain ⟨_, h2, h3, h4⟩ := reachable_ledgerInv hr
  constructor
  · exact lastBatch_le fun p hp => (h2 p hp).2
  · intro g h0 hsucc
    rcases rollback_cases hsucc with ⟨_, hcase⟩ | ⟨_, _, _, heq⟩
    · rcases hcase with hl0 | hrev
      · exact absurd hl0 h0
      · exfalso
        obtain ⟨p, hp, hpe⟩ := exists_mem_eq_lastBatch h0
        have hlk : lookupH m.history p.1 = some p.2 :=
          lookupH_eq_of_mem_of_keysNodup h4 hp
        have hmem : p.1 ∈ toRevertOf m := mem_toRevertOf (h3 p hp) (by rw [hlk, hpe])
        rw [hrev] at hmem
        cases hmem
    · rw [heq]

theorem c2_witness :
    lastBatch (NewMigrator ["001_a"]).history ≤ (NewMigrator ["001_a"]).nextBatch :=
  (@c2_nextBatch_ge_lastBatch ["001_a"] (NewMigrator ["001_a"])
    Relation.ReflTransGen.refl).1

theorem filter_and_comm (p q : String → Bool) (l : List String) :
    l.filter (fun a => p a && q a) = (l.filter q).filter p := by
  induction l with
  | nil => rfl
  | cons a l ih =>
    cases hq : q a with
    | true =>
      cases hp : p a with
      | true =>
        rw [@List.filter_cons_of_pos _ (fun x => p x && q x) a l (by simp [hp, hq]),
          @List.filter_cons_of_pos _ q a l hq,
          @List.filter_cons_of_pos _ p a (l.filter q) hp, ih]
      | false =>
        rw [@List.filter_cons_of_neg _ (fun x => p x && q x) a l (by simp [hp]),
          @List.filter_cons_of_pos _ q a l hq,
          @List.filter_cons_of_neg _ p a (l.filter q) (by simp [hp]), ih]
    | false =>
      rw [@List.filter_cons_of_neg _ (fun x => p x && q x) a l (by simp [hq]),
        @List.filter_cons_of_neg _ q a l (by simp [hq]), ih]

theorem filter_isNone_recordAll {m : Migrator} {A rest : List String}
    (hp : pendingOf m = A ++ rest) (hnd : (A ++ rest).Nodup) :
    m.migrations.filter
      (fun n => (lookupH (recordAll m.history A m.nextBatch) n).isNone) = rest := by
  have hstep : ∀ n ∈ m.migrations,
      ((lookupH (recordAll m.history A m.nextBatch) n).isNone) =
        (decide (n ∉ A) && (lookupH m.history n).isNone) := by
    intro n _
    rw [lookupH_recordAll]
    by_cases hna : n ∈ A
    · simp [hna]
    · simp [hna]
  rw [List.filter_congr hstep, filter_and_comm,
    show m.migrations.filter (fun n => (lookupH m.history n).isNone) = A ++ rest from hp,
    List.filter_append]
  have hdisj : A.Disjoint rest := (List.nodup_append.mp hnd).2.2
  have hA0 : A.filter (fun n => decide (n ∉ A)) = [] :=
    List.filter_eq_nil_iff.mpr fun a ha => by simp [ha]
  have hR : rest.filter (fun n => decide (n ∉ A)) = rest :=
    List.filter_eq_self.mpr fun a ha => decide_eq_true fun hA2 => hdisj hA2 ha
  rw [hA0, hR, List.nil_append]

/-- Claim C1 as stated is false: it asserts the migrate-then-rollback
round-trip for every migrator state in which all executor calls succeed.
In the state reached from a fresh migrator over `["001_a"]` by one
successful `Migrate` (ledger `{"001_a" ↦ 1}`, `nextBatch = 2`), nothing is
pending, so the second `Migrate` is a no-op and the `Rollback` rolls back
the pre-existing batch 1: the counter drops from 2 to 1 and the entry for
`"001_a"` is erased instead of being restored. -/
theorem c1_counterexample :
    ((Rollback (fun _ => none)
        (Migrate (fun _ => none)
          (Migrate (fun _ => none) (NewMigrator ["001_a"])).1).1).1).nextBatch ≠
      ((Migrate (fun _ => none) (NewMigrator ["001_a"])).1).nextBatch ∧
    lookupH ((Rollback (fun _ => none)
        (Migrate (fun _ => none)
          (Migrate (fun _ => none) (NewMigrator ["001_a"])).1).1).1).history "001_a" ≠
      lookupH ((Migrate (fun _ => none) (NewMigrator ["001_a"])).1).history "001_a" := by
  decide

/-- Claim C1 (amended): the round-trip holds for every migrator state in
which all executor calls succeed, **provided** every recorded batch number
is at least 1 and strictly below `nextBatch`, `nextBatch` is at least 1,
and at least one migration is pending (or the ledger is empty): then
`Migrate` followed by `Rollback` leaves the ledger's applied mapping and
the `nextBatch` counter identical to their values before the `Migrate`. -/
theorem c1_migrate_rollback_roundtrip {f g : String → Option String} {m : Migrator}
    (hb : ∀ p ∈ m.history, p.2 < m.nextBatch) (hn : 1 ≤ m.nextBatch)
    (hpe : pendingOf m ≠ [] ∨ m.history = [])
    (hf : ∀ n, f n = none) (hg : ∀ n, g n = none) :
    (∀ x, lookupH ((Rollback g (Migrate f m).1).1).history x = lookupH m.history x) ∧
      ((Rollback g (Migrate f m).1).1).nextBatch = m.nextBatch := by
  by_cases hp : pendingOf m = []
  · have hhist : m.history = [] := hpe.resolve_left fun hne => hne hp
    have hm1 : (Migrate f m).1 = m := by
      rw [migrate_pending_nil hp]
    have h0 : lastBatch m.history = 0 := by
      rw [hhist]
      rfl
    rw [hm1, rollback_lastBatch_zero h0]
    exact ⟨fun x => rfl, rfl⟩
  · obtain ⟨_, _, _, _, hlook, hnb, _⟩ :=
      migrate_then_rollback_ok hb hn hp (fun n _ => hf n) (fun n _ => hg n)
    exact ⟨hlook, hnb⟩

theorem c1_witness :
    ((Rollback (fun _ => none)
        (Migrate (fun _ => none) (NewMigrator ["001_a"])).1).1).nextBatch =
      (NewMigrator ["001_a"]).nextBatch :=
  (c1_migrate_rollback_roundtrip (by decide) (by decide) (Or.inl (by decide))
    (fun n => rfl) (fun n => rfl)).2

/-- Claim C3: with the registered list sorted ascending by name (as
`NewMigrator` establishes), a successful `Migrate` calls `Up` on exactly
the pending migrations in ascending lexicographic name order (the trace is
the pending list, which is sorted), and a subsequent successful `Rollback`
of that batch calls `Down` on exactly those migrations in the exact
reverse of that apply order — the pending list may be any sub-filter of
the registered list, so the batch may be non-contiguous in it. -/
theorem c3_apply_revert_order {f g : String → Option String} {m : Migrator}
    (hs : List.Sorted nameLeP m.migrations)
    (hb : ∀ p ∈ m.history, p.2 < m.nextBatch) (hn : 1 ≤ m.nextBatch)
    (hp : pendingOf m ≠ [])
    (hf : ∀ n ∈ pendingOf m, f n = none) (hg : ∀ n ∈ pendingOf m, g n = none) :
    (Migrate f m).2.1 = pendingOf m ∧
      List.Sorted nameLeP ((Migrate f m).2.1) ∧
      (Rollback g (Migrate f m).1).2.1 = ((Migrate f m).2.1).reverse := by
  obtain ⟨htr1, _, htr3, _, _, _, _⟩ := migrate_then_rollback_ok hb hn hp hf hg
  refine ⟨htr1, ?_, ?_⟩
  · rw [htr1]
    exact pendingOf_sorted hs
  · rw [htr3, htr1]

theorem c3_witness :
    (Migrate (fun _ => none) (NewMigrator ["003_x", "001_a", "002_b"])).2.1 =
      pendingOf (NewMigrator ["003_x", "001_a", "002_b"]) :=
  (c3_apply_revert_order (newMigrator_sorted ["003_x", "001_a", "002_b"])
    (by decide) (by decide) (by decide) (fun n _ => rfl) (fun n _ => rfl)).1

/-- Claim C4: if the `Up` of migration `x` fails partway through `Migrate`
(the pending list splits as `A ++ x :: C` with every `Up` in `A`
succeeding), then: the call reports `x` with its cause and its trace stops
at `x`; `nextBatch` is not advanced; every migration of `A` is recorded
under batch `N = nextBatch`; `x` and `C` are not recorded; and a retried
`Migrate` in which every `Up` succeeds applies exactly `x :: C` (the
previously unapplied migrations) and records them under the same batch
`N`, advancing the counter only then. -/
theorem c4_failed_up_batch_retry {f g : String → Option String} {m : Migrator}
    {A C : List String} {x cause : String}
    (hnd : m.migrations.Nodup)
    (hp : pendingOf m = A ++ x :: C)
    (hA : ∀ n ∈ A, f n = none) (hx : f x = some cause)
    (hg : ∀ n, g n = none) :
    (Migrate f m).2.2 = some ⟨x, cause⟩ ∧
      (Migrate f m).2.1 = A ++ [x] ∧
      ((Migrate f m).1).nextBatch = m.nextBatch ∧
      (∀ a ∈ A, lookupH ((Migrate f m).1).history a = some m.nextBatch) ∧
      (∀ n ∈ x :: C, lookupH ((Migrate f m).1).history n = none) ∧
      pendingOf (Migrate f m).1 = x :: C ∧
      (Migrate g (Migrate f m).1).2.1 = x :: C ∧
      (Migrate g (Migrate f m).1).2.2 = none ∧
      (∀ n ∈ x :: C,
        lookupH ((Migrate g (Migrate f m).1).1).history n = some m.nextBatch) ∧
      ((Migrate g (Migrate f m).1).1).nextBatch = m.nextBatch + 1 := by
  have hndP : (A ++ x :: C).Nodup := by
    have hsub : (pendingOf m).Nodup :=
      List.Nodup.sublist (List.filter_sublist m.migrations) hnd
    rwa [hp] at hsub
  have hCA : ∀ n ∈ x :: C, n ∉ A := by
    rcases List.nodup_append.mp hndP with ⟨_, _, hdisj⟩
    exact fun n hn hna => hdisj hna hn
  have hpend : ∀ n ∈ x :: C, lookupH m.history n = none := by
    intro n hn
    apply lookupH_none_of_mem_pendingOf (m := m)
    rw [hp]
    exact List.mem_append_right _ hn
  have hmf := migrate_fail hp hA hx
  have hp1 : pendingOf (Migrate f m).1 = x :: C := by
    rw [hmf]
    exact filter_isNone_recordAll hp hndP
  have hp1ne : pendingOf (Migrate f m).1 ≠ [] := by
    rw [hp1]
    exact List.cons_ne_nil _ _
  have hgall : ∀ n ∈ pendingOf (Migrate f m).1, g n = none := fun n _ => hg n
  refine ⟨by rw [hmf], by rw [hmf], by rw [hmf], ?_, ?_, hp1, ?_, ?_, ?_, ?_⟩
  · intro a ha
    rw [hmf]
    show lookupH (recordAll m.history A m.nextBatch) a = some m.nextBatch
    rw [lookupH_recordAll, if_pos ha]
  · intro n hn
    rw [hmf]
    show lookupH (recordAll m.history A m.nextBatch) n = none
    rw [lookupH_recordAll, if_neg (hCA n hn)]
    exact hpend n hn
  · rw [migrate_ok hp1ne hgall, hp1]
  · rw [migrate_ok hp1ne hgall]
  · intro n hn
    rw [migrate_ok hp1ne hgall]
    show lookupH (recordAll ((Migrate f m).1).history (pendingOf (Migrate f m).1)
        ((Migrate f m).1).nextBatch) n = some m.nextBatch
    rw [hp1, lookupH_recordAll, if_pos hn, hmf]
  · rw [migrate_ok hp1ne hgall]
    show ((Migrate f m).1).nextBatch + 1 = m.nextBatch + 1
    rw [hmf]

theorem c4_witness :
    (Migrate (fun n => if n = "002_b" then some "boom" else none)
      (NewMigrator ["001_a", "002_b", "003_c"])).2.2 =
        some ⟨"002_b", "boom"⟩ :=
  (@c4_failed_up_batch_retry (fun n => if n = "002_b" then some "boom" else none)
    (fun _ => none) (NewMigrator ["001_a", "002_b", "003_c"])
    ["001_a"] ["003_c"] "002_b" "boom"
    (by decide) (by decide) (by decide) (by decide) (fun n => rfl)).1

/-- Claim C5: if the `Down` of migration `x` fails during `Rollback` (the
revert list splits as `A ++ x :: C` with every `Down` in `A` succeeding),
the call stops immediately — its trace is `A ++ [x]`, so no `Down` is
called for `C` — the target-batch entries not yet reverted (`x` and `C`)
remain in the ledger under the target batch, `nextBatch` is unchanged, and
the returned error carries the failing migration's name and the underlying
cause. -/
theorem c5_rollback_fail_stops {g : String → Option String} {m : Migrator}
    {A C : List String} {x cause : String}
    (h0 : lastBatch m.history ≠ 0) (hr : toRevertOf m = A ++ x :: C)
    (hA : ∀ n ∈ A, g n = none) (hx : g x = some cause) :
    (Rollback g m).2.2 = some ⟨x, cause⟩ ∧
      (Rollback g m).2.1 = A ++ [x] ∧
      ((Rollback g m).1).nextBatch = m.nextBatch ∧
      (∀ n ∈ x :: C, n ∉ A →
        lookupH ((Rollback g m).1).history n = some (lastBatch m.history)) := by
  have hrf := rollback_fail h0 hr hA hx
  refine ⟨by rw [hrf], by rw [hrf], by rw [hrf], ?_⟩
  intro n hn hnA
  rw [hrf]
  show lookupH (eraseAll m.history A) n = some (lastBatch m.history)
  rw [lookupH_eraseAll, if_neg hnA]
  apply lookupH_eq_target_of_mem_toRevertOf
  rw [hr]
  exact List.mem_append_right _ hn

theorem c5_witness :
    (Rollback (fun n => if n = "001_a" then some "down-broke" else none)
      (Migrate (fun _ => none) (NewMigrator ["001_a", "002_b"])).1).2.2 =
        some ⟨"001_a", "down-broke"⟩ :=
  (@c5_rollback_fail_stops (fun n => if n = "001_a" then some "down-broke" else none)
    (Migrate (fun _ => none) (NewMigrator ["001_a", "002_b"])).1
    ["002_b"] [] "001_a" "down-broke"
    (by decide) (by decide) (by decide) (by decide)).1

/-- Claim C8: if a `Down` fails during `Rollback`, every migration of the
target batch whose `Down` succeeded earlier in the same call (the list `A`
before the failing `x`) has already been erased from the ledger at the
moment the error is returned: erasure happens per migration inside the
revert loop, not deferred to full success of the batch. -/
theorem c8_erase_per_migration {g : String → Option String} {m : Migrator}
    {A C : List String} {x cause : String}
    (h0 : lastBatch m.history ≠ 0) (hr : toRevertOf m = A ++ x :: C)
    (hA : ∀ n ∈ A, g n = none) (hx : g x = some cause) :
    ∀ a ∈ A, lookupH ((Rollback g m).1).history a = none := by
  intro a ha
  rw [rollback_fail h0 hr hA hx]
  show lookupH (eraseAll m.history A) a = none
  rw [lookupH_eraseAll, if_pos ha]

theorem c8_witness :
    lookupH ((Rollback (fun n => if n = "001_a" then some "down-broke" else none)
      (Migrate (fun _ => none) (NewMigrator ["001_a", "002_b"])).1).1).history
        "002_b" = none :=
  @c8_erase_per_migration (fun n => if n = "001_a" then some "down-broke" else none)
    (Migrate (fun _ => none) (NewMigrator ["001_a", "002_b"])).1
    ["002_b"] [] "001_a" "down-broke"
    (by decide) (by decide) (by decide) (by decide) "002_b" (by decide)

/-- Claim C9: if the ledger's highest batch is nonzero but held only by
names absent from the registered migration list, `Rollback` hits its
degenerate branch: it returns success and leaves the state completely
unchanged — the orphan entries are not erased and `nextBatch` is not
reset — and since the state is unchanged, every subsequent `Rollback`
returns the same result, so no earlier batch can ever be rolled back
through this interface. -/
theorem c9_orphan_batch_rollback_noop {g : String → Option String} {m : Migrator}
    (h0 : lastBatch m.history ≠ 0)
    (horph : ∀ n ∈ m.migrations, lookupH m.history n ≠ some (lastBatch m.history)) :
    Rollback g m = (m, [], none) ∧
      ∀ g2 : String → Option String, Rollback g2 (Rollback g m).1 = (m, [], none) := by
  have hrev : toRevertOf m = [] := by
    rw [toRevertOf]
    apply List.filter_eq_nil_iff.mpr
    intro n hn
    have hne := horph n (List.mem_reverse.mp hn)
    simp [hne]
  have h1 := rollback_degenerate (f := g) h0 hrev
  refine ⟨h1, fun g2 => ?_⟩
  rw [h1]
  exact rollback_degenerate h0 hrev

theorem c9_witness :
    Rollback (fun _ => none)
        { migrations := ["001_a"], history := [("zzz", 1)], nextBatch := 2 } =
      ({ migrations := ["001_a"], history := [("zzz", 1)], nextBatch := 2 }, [], none) :=
  (c9_orphan_batch_rollback_noop (by decide) (by decide)).1

end Raptor
